import Mathlib

/-!
Verification of the binary TLV codec in protocol.go.

The embedding models the Go source directly:
- Go values passed to encode are dynamically typed (interface with any
  payload); the model type Value has one constructor per case of the
  type switch in encodeElement, plus one constructor standing for any
  value of an unsupported dynamic type (the default case).
- Byte strings are lists of natural numbers; every byte produced by the
  encoder is below 256.  Machine integers are modelled as Nat or Int with
  explicit reduction modulo a power of two exactly where the Go code
  truncates (uint64 shifts, the uint64-to-int cast, int64 overflow).
- The Go decoder recurses on nested lists with no explicit bound; the
  model threads a fuel parameter that decreases once per nesting level,
  and the top-level wrappers pass data.length + 1 fuel, which is more
  than the input can ever consume (each nesting level consumes at least
  two bytes before recursing).
- Go runtime aborts (slice bounds violations, make with a capacity above
  the maximal int) are modelled as explicit panic results, distinct from
  the error returns of the source.
-/

/-- Model of the dynamically typed values handled by encodeElement's type
switch in protocol.go: a Go string (its UTF-8 bytes), an int32, a
DataInput (list of elements), Go's nil, and `unsupported`, which stands
for a value of any other dynamic type (e.g. float64), sent to the
default case of the switch. -/
inductive Value where
  | null : Value
  | text (s : List Nat) : Value
  | int32 (i : Int) : Value
  | list (es : List Value) : Value
  | unsupported : Value

/-- One step of encodeVarint's loop per unit of fuel: while n ≥ 0x80 emit
byte(n) | 0x80 (= n % 128 + 128) and shift n right by 7; then emit the
final byte.  Structured with fuel so that the definition computes by
kernel reduction; 10 units are enough for every uint64 (Go's fixed
10-byte buffer relies on the same bound). -/
def encodeVarintGo : Nat → Nat → List Nat
  | 0, n => [n]
  | f + 1, n => if n ≥ 128 then (n % 128 + 128) :: encodeVarintGo f (n / 128) else [n]

/-- encodeVarint from protocol.go: LEB128 encoding of a uint64. -/
def encodeVarint (n : Nat) : List Nat := encodeVarintGo 10 n

/-- The decode errors of protocol.go, one constructor per distinct error
the source can return (error strings in the Go code):
unexpectedEnd = "unexpected end of data", incompleteVarint =
"incomplete varint", varintTooLong = "varint too long",
stringLengthExceeds = "string length exceeds data", invalidUtf8 =
"invalid UTF-8 string", insufficientInt32 = "insufficient data for
int32", unknownTag = "unknown type tag". -/
inductive DErr where
  | unexpectedEnd : DErr
  | incompleteVarint : DErr
  | varintTooLong : DErr
  | stringLengthExceeds : DErr
  | invalidUtf8 : DErr
  | insufficientInt32 : DErr
  | unknownTag (t : Nat) : DErr

/-- The truncation-flavoured error kinds: input exhausted, a declared
length or count exceeding the remaining bytes, or a varint ending
mid-sequence (the spec's TruncatedInput family). -/
def DErr.isTruncation : DErr → Bool
  | .unexpectedEnd => true
  | .incompleteVarint => true
  | .stringLengthExceeds => true
  | .insufficientInt32 => true
  | _ => false

/-- Loop body of decodeVarint from protocol.go.  i is the byte index,
shift the current shift amount, n the accumulator.  Go's
n |= uint64(b&0x7F) << shift is modelled as a bitwise or with the
shifted 7-bit chunk truncated to 64 bits, exactly as uint64 arithmetic
truncates. -/
def decodeVarintGo : List Nat → Nat → Nat → Nat → Except DErr (Nat × Nat)
  | [], _, _, _ => .error .incompleteVarint
  | b :: rest, i, shift, n =>
    if i > 9 then .error .varintTooLong
    else
      let n2 := n ||| b % 128 * 2 ^ shift % 18446744073709551616
      if b < 128 then .ok (n2, i + 1)
      else decodeVarintGo rest (i + 1) (shift + 7) n2

/-- decodeVarint from protocol.go: returns the decoded uint64 and the
number of bytes consumed, or an error. -/
def decodeVarint (data : List Nat) : Except DErr (Nat × Nat) :=
  decodeVarintGo data 0 0 0

/-- Lower bound of the accepted second byte after the given leading byte,
following the UTF-8 acceptance ranges used by Go's unicode/utf8
validation (RFC 3629 well-formed UTF-8). -/
def utf8SecondLo (b : Nat) : Nat :=
  if b = 0xE0 then 0xA0 else if b = 0xED then 0x80
  else if b = 0xF0 then 0x90 else if b = 0xF4 then 0x80 else 0x80

/-- Upper bound (inclusive) of the accepted second byte after the given
leading byte. -/
def utf8SecondHi (b : Nat) : Nat :=
  if b = 0xED then 0x9F else if b = 0xF4 then 0x8F else 0xBF

/-- Whether a byte is a UTF-8 continuation byte (0x80–0xBF). -/
def isCont (b : Nat) : Bool := 0x80 ≤ b && b ≤ 0xBF

/-- The set of byte sequences accepted by Go's utf8.ValidString: ASCII
bytes stand alone; leading bytes 0xC2–0xDF, 0xE0–0xEF and 0xF0–0xF4 are
followed by one, two or three continuation bytes, the first restricted
per leading byte (rejecting overlong forms, surrogates and values above
U+10FFFF); bytes 0x80–0xC1 and 0xF5 upwards never lead a sequence. -/
def validUtf8 : List Nat → Bool
  | [] => true
  | b :: rest =>
    if b < 0x80 then validUtf8 rest
    else if b < 0xC2 then false
    else if b < 0xE0 then
      match rest with
      | c1 :: r => isCont c1 && validUtf8 r
      | [] => false
    else if b < 0xF0 then
      match rest with
      | c1 :: c2 :: r =>
        (utf8SecondLo b ≤ c1 && c1 ≤ utf8SecondHi b) && isCont c2 && validUtf8 r
      | _ => false
    else if b < 0xF5 then
      match rest with
      | c1 :: c2 :: c3 :: r =>
        (utf8SecondLo b ≤ c1 && c1 ≤ utf8SecondHi b) && isCont c2 && isCont c3 &&
          validUtf8 r
      | _ => false
    else false

/-- Go's uint32(v) for an int32 v: the two's-complement bit pattern of v
as a natural number below 2^32 (Int.emod by 2^32 is non-negative). -/
def toUInt32Pat (i : Int) : Nat := (i % 4294967296).toNat

/-- The 4 little-endian payload bytes binary.LittleEndian.PutUint32
writes for the two's-complement pattern of an int32. -/
def int32LE (i : Int) : List Nat :=
  let u := toUInt32Pat i
  [u % 256, u / 256 % 256, u / 65536 % 256, u / 16777216 % 256]

/-- Go's int(length) for a uint64 length: reinterpret the low 64 bits as
a signed two's-complement integer. -/
def toInt64 (n : Nat) : Int :=
  if n < 9223372036854775808 then (n : Int) else (n : Int) - 18446744073709551616

/-- Truncation of a mathematical integer to Go's wrapping int64
arithmetic.  Needed because Go's offset+int(length) may overflow. -/
def int64wrap (x : Int) : Int :=
  (x + 9223372036854775808) % 18446744073709551616 - 9223372036854775808

mutual
/-- encodeElement from protocol.go.  The first component is the byte
sequence the call appends to the buffer, the second is true when the
call returns nil error.  String: tag 0x01, varint byte length, raw
bytes.  Int32: tag 0x02, 4 bytes little-endian.  DataInput: tag 0x03,
varint element count, the elements' encodings, stopping at (and keeping
the partial output of) the first failing element.  nil: tag 0x00.
Anything else hits the default case: nothing written, error returned. -/
def encodeElement : Value → List Nat × Bool
  | .text s => (1 :: (encodeVarint s.length ++ s), true)
  | .int32 i => (2 :: int32LE i, true)
  | .list es =>
    let r := encodeList es
    (3 :: (encodeVarint es.length ++ r.1), r.2)
  | .null => ([0], true)
  | .unsupported => ([], false)

/-- The element loop of encodeElement's DataInput case: encode elements
in order; on the first element whose encodeElement fails, keep what was
already written and return the error. -/
def encodeList : List Value → List Nat × Bool
  | [] => ([], true)
  | v :: vs =>
    let r := encodeElement v
    if r.2 then
      let r2 := encodeList vs
      (r.1 ++ r2.1, r2.2)
    else (r.1, false)
end

/-- encode from protocol.go: run encodeElement and return the buffer
contents, discarding encodeElement's error. -/
def encode (toSend : Value) : List Nat := (encodeElement toSend).1

/-- Result of one decodeElement call: the decoded element together with
the new absolute offset (Go returns them as two values with nil error),
or the error returned, or a Go runtime panic (never an ordinary
return), or fuel exhaustion of the model (unreachable from the
wrappers, which pass more fuel than any input can consume). -/
inductive DResult where
  | ok (v : Value) (offset : Nat) : DResult
  | err (e : DErr) : DResult
  | panicSliceBounds : DResult
  | panicMakeCap : DResult
  | outOfFuel : DResult

/-- Result of the element loop in decodeElement's DataInput case. -/
inductive DLRes where
  | ok (vs : List Value) (offset : Nat) : DLRes
  | err (e : DErr) : DLRes
  | panicSliceBounds : DLRes
  | panicMakeCap : DLRes
  | outOfFuel : DLRes

/-- The element loop of decodeElement's DataInput case: run dec count
times, threading the offset, collecting elements in order, and abort on
the first error (Go returns the error immediately, discarding the
partial slice). -/
def decodeLoop (dec : Nat → DResult) : Nat → Nat → DLRes
  | 0, offset => .ok [] offset
  | k + 1, offset =>
    match dec offset with
    | .ok v off2 =>
      match decodeLoop dec k off2 with
      | .ok vs offF => .ok (v :: vs) offF
      | r => r
    | .err e => .err e
    | .panicSliceBounds => .panicSliceBounds
    | .panicMakeCap => .panicMakeCap
    | .outOfFuel => .outOfFuel

/-- decodeElement from protocol.go, with fuel decreasing at each list
nesting level.  The Text case follows the source exactly: the decoded
uint64 length is cast to int (toInt64), offset+int(length) is computed
in wrapping int64 arithmetic, compared against len(data), and then the
slice data[offset : offset+int(length)] is taken — which panics when
the (possibly negative) high bound is below the low bound.  The
DataInput case models make([]interface{}, 0, count), which panics when
count exceeds the maximal int (2^63 - 1). -/
def decodeElementF : Nat → List Nat → Nat → DResult
  | 0, _, _ => .outOfFuel
  | f + 1, data, offset =>
    if offset ≥ data.length then .err .unexpectedEnd
    else
      let tag := data.getD offset 0
      let off0 := offset + 1
      if tag = 1 then
        match decodeVarint (data.drop off0) with
        | .error e => .err e
        | .ok (length, consumed) =>
          let off1 := off0 + consumed
          let hi : Int := int64wrap ((off1 : Int) + toInt64 length)
          if hi > (data.length : Int) then .err .stringLengthExceeds
          else if (off1 : Int) > hi then .panicSliceBounds
          else
            let s := (data.drop off1).take (hi - (off1 : Int)).toNat
            if validUtf8 s then .ok (.text s) hi.toNat
            else .err .invalidUtf8
      else if tag = 2 then
        if off0 + 4 > data.length then .err .insufficientInt32
        else
          let u := data.getD off0 0 ||| data.getD (off0 + 1) 0 * 256 |||
            data.getD (off0 + 2) 0 * 65536 ||| data.getD (off0 + 3) 0 * 16777216
          let v : Int := if u < 2147483648 then (u : Int) else (u : Int) - 4294967296
          .ok (.int32 v) (off0 + 4)
      else if tag = 3 then
        match decodeVarint (data.drop off0) with
        | .error e => .err e
        | .ok (count, consumed) =>
          let off1 := off0 + consumed
          if count ≥ 9223372036854775808 then .panicMakeCap
          else
            match decodeLoop (decodeElementF f data) count off1 with
            | .ok vs offF => .ok (.list vs) offF
            | .err e => .err e
            | .panicSliceBounds => .panicSliceBounds
            | .panicMakeCap => .panicMakeCap
            | .outOfFuel => .outOfFuel
      else if tag = 0 then .ok .null off0
      else .err (.unknownTag tag)

/-- decodeElement at the given offset; data.length + 1 fuel always
suffices, since each nesting level consumes at least two bytes of input
before recursing. -/
def decodeElement (data : List Nat) (offset : Nat) : DResult :=
  decodeElementF (data.length + 1) data offset

/-- The Go runtime panics decode can hit. -/
inductive GoPanic where
  | sliceBounds : GoPanic
  | makeCap : GoPanic

/-- decode from protocol.go: result, _, _ := decodeElement(data, 0);
return result.  The error is discarded; on a failed parse decodeElement
returned nil as the element, which is the same value a successful Null
decode yields, so decode answers Value.null.  A runtime panic
propagates (modelled as the Except error).  The outOfFuel case is
unreachable with data.length + 1 fuel. -/
def decode (received : List Nat) : Except GoPanic Value :=
  match decodeElement received 0 with
  | .ok v _ => .ok v
  | .err _ => .ok .null
  | .panicSliceBounds => .error .sliceBounds
  | .panicMakeCap => .error .makeCap
  | .outOfFuel => .ok .null

mutual
/-- compareDataInput from protocol.go: structural equality following the
source's type switch — strings by string equality, int32 by equality,
DataInput by length check plus elementwise recursion, nil against nil,
and false in the default case. -/
def compareDataInput : Value → Value → Bool
  | .text a, .text c => a == c
  | .text _, _ => false
  | .int32 a, .int32 c => a == c
  | .int32 _, _ => false
  | .list as, .list bs => as.length == bs.length && compareElems as bs
  | .list _, _ => false
  | .null, .null => true
  | .null, _ => false
  | .unsupported, _ => false

/-- The element loop of compareDataInput's DataInput case (runs after
the length check, so the second list is never shorter in practice). -/
def compareElems : List Value → List Value → Bool
  | [], _ => true
  | _ :: _, [] => true
  | a :: as, b :: bs => compareDataInput a b && compareElems as bs
end

mutual
/-- The values Go's type system can actually hand to the codec, with
valid UTF-8 where the claims assume it: no unsupported element
anywhere, text is valid UTF-8 (hence bytes below 256) with length
representable as a non-negative int (below 2^63, as for every Go
string), int32 within the signed 32-bit range, and list lengths below
2^63 (as for every Go slice). -/
def wfValue : Value → Bool
  | .null => true
  | .text s => validUtf8 s && decide (s.length < 9223372036854775808)
  | .int32 i => decide (-2147483648 ≤ i) && decide (i < 2147483648)
  | .list es => decide (es.length < 9223372036854775808) && wfList es
  | .unsupported => false

/-- wfValue for every element of a list. -/
def wfList : List Value → Bool
  | [] => true
  | v :: vs => wfValue v && wfList vs
end

mutual
/-- Nesting depth of a value: 1 for leaves, one more than the deepest
element for lists.  The decoder's fuel consumption is bounded by it. -/
def depthValue : Value → Nat
  | .list es => 1 + depthList es
  | _ => 1

/-- Largest depth among the elements of a list (0 when empty). -/
def depthList : List Value → Nat
  | [] => 0
  | v :: vs => max (depthValue v) (depthList vs)
end

/-- Induction over Value with the elementwise hypothesis for lists,
assembled from the nested recursor. -/
theorem Value.inductionOn {P : Value → Prop}
    (hnull : P .null) (htext : ∀ s, P (.text s)) (hint : ∀ i, P (.int32 i))
    (hlist : ∀ es, (∀ v ∈ es, P v) → P (.list es))
    (huns : P .unsupported) : ∀ v, P v :=
  Value.rec (motive_2 := fun es => ∀ v ∈ es, P v) hnull htext hint hlist huns
    (fun _ h => absurd h (List.not_mem_nil _))
    (fun hd tl hhd htl v hv => by
      rcases List.mem_cons.mp hv with h | h
      · exact h ▸ hhd
      · exact htl v h)

/-! ### Arithmetic and list helpers -/

theorem lor_mul_two_pow {a b k : Nat} (h : a < 2 ^ k) :
    a ||| b * 2 ^ k = a + b * 2 ^ k := by
  have h2 := Nat.mul_add_lt_is_or h b
  rw [Nat.lor_comm, Nat.mul_comm b (2 ^ k), ← h2, Nat.add_comm]

theorem int64wrap_eq_self {x : Int}
    (h1 : -9223372036854775808 ≤ x) (h2 : x < 9223372036854775808) :
    int64wrap x = x := by
  unfold int64wrap
  omega

theorem toInt64_of_lt {n : Nat} (h : n < 9223372036854775808) :
    toInt64 n = (n : Int) := by
  unfold toInt64
  rw [if_pos h]

theorem getD_append_at (pre : List Nat) (b : Nat) (l : List Nat) :
    (pre ++ b :: l).getD pre.length 0 = b := by
  induction pre with
  | nil => rfl
  | cons a t ih => simpa using ih

theorem drop_append_cons (pre : List Nat) (b : Nat) (l : List Nat) :
    (pre ++ b :: l).drop (pre.length + 1) = l := by
  have h : pre ++ b :: l = (pre ++ [b]) ++ l := by simp
  rw [h, List.drop_left' (by simp)]

theorem prefix_split {α : Type} {p a b : List α} (h : p <+: a ++ b) :
    (p <+: a ∧ p ≠ a) ∨ ∃ r, p = a ++ r ∧ r <+: b := by
  rcases Nat.lt_or_ge p.length a.length with hl | hl
  · left
    have hpa : p <+: a :=
      List.prefix_of_prefix_length_le h (List.prefix_append a b) (Nat.le_of_lt hl)
    exact ⟨hpa, fun he => by subst he; omega⟩
  · right
    have hap : a <+: p :=
      List.prefix_of_prefix_length_le (List.prefix_append a b) h hl
    obtain ⟨r, hr⟩ := hap
    refine ⟨r, hr.symm, ?_⟩
    obtain ⟨t, ht⟩ := h
    rw [← hr] at ht
    have hb : b = r ++ t := by
      have := ht
      rw [List.append_assoc] at this
      exact (List.append_cancel_left this).symm
    exact ⟨t, hb.symm⟩

/-! ### Varint codec lemmas -/

theorem encodeVarintGo_ne_nil (f n : Nat) : encodeVarintGo f n ≠ [] := by
  cases f with
  | zero => simp [encodeVarintGo]
  | succ f =>
    by_cases h : n ≥ 128 <;> simp [encodeVarintGo, h]

theorem encodeVarintGo_length_le {f n : Nat} (h : n < 128 ^ f) :
    (encodeVarintGo f n).length ≤ max 1 f := by
  induction f generalizing n with
  | zero => simp [encodeVarintGo]
  | succ f ih =>
    by_cases hn : n ≥ 128
    · have hf : 1 ≤ f := by
        rcases Nat.eq_zero_or_pos f with h0 | h1
        · subst h0; simp at h; omega
        · exact h1
      have hh : n / 128 < 128 ^ f := by
        rw [Nat.div_lt_iff_lt_mul (by norm_num)]
        calc n < 128 ^ (f + 1) := h
        _ = 128 ^ f * 128 := by rw [pow_succ]
      have := ih hh
      simp only [encodeVarintGo, hn, if_pos, List.length_cons, ge_iff_le]
      omega
    · simp [encodeVarintGo, hn]

theorem decodeVarintGo_enc (f : Nat) : ∀ n i acc suf, n < 128 ^ f → i ≤ 9 →
    acc < 2 ^ (7 * i) → n * 2 ^ (7 * i) < 2 ^ 64 →
    decodeVarintGo (encodeVarintGo f n ++ suf) i (7 * i) acc =
      .ok (acc + n * 2 ^ (7 * i), i + (encodeVarintGo f n).length) := by
  induction f with
  | zero =>
    intro n i acc suf hn hi hacc hbound
    have h0 : n = 0 := by simpa [pow_zero] using hn
    subst h0
    simp [encodeVarintGo, decodeVarintGo, Nat.not_lt.mpr, hi,
      Nat.not_lt_of_le hi, show ¬(i > 9) from by omega]
  | succ f ih =>
    intro n i acc suf hn hi hacc hbound
    by_cases hge : n ≥ 128
    · -- continuation byte
      have hi8 : i ≤ 8 := by
        by_contra hgt
        have h9 : 9 ≤ i := by omega
        have hp : (2 : Nat) ^ 63 ≤ 2 ^ (7 * i) :=
          Nat.pow_le_pow_right (by norm_num) (by omega)
        have := Nat.mul_le_mul hge hp
        have h70 : (128 : Nat) * 2 ^ 63 = 2 ^ 70 := by norm_num
        rw [h70] at this
        have : (2 : Nat) ^ 70 < 2 ^ 64 := Nat.lt_of_le_of_lt this hbound
        norm_num at this
      have hchunk : n % 128 * 2 ^ (7 * i) < 18446744073709551616 := by
        calc n % 128 * 2 ^ (7 * i) ≤ n * 2 ^ (7 * i) :=
              Nat.mul_le_mul_right _ (Nat.mod_le n 128)
        _ < 2 ^ 64 := hbound
        _ = 18446744073709551616 := by norm_num
      have hlor : acc ||| n % 128 * 2 ^ (7 * i) = acc + n % 128 * 2 ^ (7 * i) :=
        lor_mul_two_pow hacc
      have hstep : encodeVarintGo (f + 1) n = (n % 128 + 128) :: encodeVarintGo f (n / 128) := by
        simp [encodeVarintGo, hge]
      have hmod : (n % 128 + 128) % 128 = n % 128 := by omega
      have hrec := ih (n / 128) (i + 1) (acc + n % 128 * 2 ^ (7 * i)) suf
        (by
          rw [Nat.div_lt_iff_lt_mul (by norm_num)]
          calc n < 128 ^ (f + 1) := hn
          _ = 128 ^ f * 128 := by rw [pow_succ])
        (by omega)
        (by
          have hml : n % 128 * 2 ^ (7 * i) ≤ 127 * 2 ^ (7 * i) :=
            Nat.mul_le_mul_right _ (by omega)
          have hps : (2 : Nat) ^ (7 * (i + 1)) = 2 ^ (7 * i) * 128 := by
            rw [show 7 * (i + 1) = 7 * i + 7 from by ring, pow_add]
            norm_num
          have hpos : 0 < (2 : Nat) ^ (7 * i) := Nat.pos_pow_of_pos _ (by norm_num)
          omega)
        (by
          have hps : (2 : Nat) ^ (7 * (i + 1)) = 2 ^ (7 * i) * 128 := by
            rw [show 7 * (i + 1) = 7 * i + 7 from by ring, pow_add]
            norm_num
          calc n / 128 * 2 ^ (7 * (i + 1)) = n / 128 * 128 * 2 ^ (7 * i) := by
                rw [hps]; ring
          _ ≤ n * 2 ^ (7 * i) := Nat.mul_le_mul_right _ (Nat.div_mul_le_self n 128)
          _ < 2 ^ 64 := hbound)
      rw [hstep]
      show decodeVarintGo ((n % 128 + 128) :: (encodeVarintGo f (n / 128) ++ suf)) i
        (7 * i) acc = _
      rw [decodeVarintGo]
      simp only [show ¬(i > 9) from by omega, if_false, hmod, hlor,
        show ¬(n % 128 + 128 < 128) from by omega,
        Nat.mod_eq_of_lt hchunk]
      rw [show 7 * i + 7 = 7 * (i + 1) from by ring, hrec]
      have hkey : n % 128 * 2 ^ (7 * i) + n / 128 * 2 ^ (7 * (i + 1)) = n * 2 ^ (7 * i) := by
        have hps : (2 : Nat) ^ (7 * (i + 1)) = 2 ^ (7 * i) * 128 := by
          rw [show 7 * (i + 1) = 7 * i + 7 from by ring, pow_add]
          norm_num
        rw [hps, show n / 128 * (2 ^ (7 * i) * 128) = n / 128 * 128 * 2 ^ (7 * i) from by ring,
          ← Nat.add_mul]
        congr 1
        omega
      rw [List.length_cons]
      simp only [Except.ok.injEq, Prod.mk.injEq]
      constructor
      · rw [Nat.add_assoc, hkey]
      · omega
    · -- final byte
      have hmod : n % 128 = n := Nat.mod_eq_of_lt (by omega)
      have hchunk : n * 2 ^ (7 * i) < 18446744073709551616 := by
        calc n * 2 ^ (7 * i) < 2 ^ 64 := hbound
        _ = 18446744073709551616 := by norm_num
      have hstep : encodeVarintGo (f + 1) n = [n] := by
        simp [encodeVarintGo, hge]
      rw [hstep]
      show decodeVarintGo (n :: suf) i (7 * i) acc = _
      rw [decodeVarintGo]
      simp only [show ¬(i > 9) from by omega, if_false, hmod,
        Nat.mod_eq_of_lt hchunk, show n < 128 from by omega, if_true]
      rw [lor_mul_two_pow hacc]
      simp

theorem decodeVarint_enc {n : Nat} (h : n < 2 ^ 64) (suf : List Nat) :
    decodeVarint (encodeVarint n ++ suf) = .ok (n, (encodeVarint n).length) := by
  have h10 : n < 128 ^ 10 := by
    calc n < 2 ^ 64 := h
    _ < 128 ^ 10 := by norm_num
  have := decodeVarintGo_enc 10 n 0 0 suf h10 (by norm_num) (by norm_num)
    (by simpa using h)
  simpa [decodeVarint, encodeVarint] using this

theorem proper_prefix_singleton {α : Type} {x : α} {p : List α}
    (hp : p <+: [x]) (hne : p ≠ [x]) : p = [] := by
  have h1 : p.length ≤ 1 := by simpa using hp.length_le
  rcases Nat.lt_or_ge p.length 1 with h | h
  · exact List.length_eq_zero.mp (by omega)
  · exact absurd (hp.eq_of_length (by simp; omega)) hne

theorem encodeVarintGo_proper_prefix_ge :
    ∀ (f n : Nat) (p : List Nat), p <+: encodeVarintGo f n → p ≠ encodeVarintGo f n →
      ∀ b ∈ p, 128 ≤ b := by
  intro f
  induction f with
  | zero =>
    intro n p hp hne b hb
    rw [show encodeVarintGo 0 n = [n] from rfl] at hp hne
    rw [proper_prefix_singleton hp hne] at hb
    simp at hb
  | succ f ih =>
    intro n p hp hne b hb
    by_cases hge : n ≥ 128
    · rw [show encodeVarintGo (f + 1) n =
          (n % 128 + 128) :: encodeVarintGo f (n / 128) from by simp [encodeVarintGo, hge]]
        at hp hne
      obtain ⟨t, ht⟩ := hp
      match p, hb with
      | a :: q, hb =>
        simp only [List.cons_append] at ht
        obtain ⟨h1, h2⟩ := List.cons.inj ht
        subst h1
        rcases List.mem_cons.mp hb with hba | hbq
        · subst hba; omega
        · refine ih (n / 128) q ⟨t, h2⟩ ?_ b hbq
          intro he
          subst he
          simp at hne
    · rw [show encodeVarintGo (f + 1) n = [n] from by simp [encodeVarintGo, hge]] at hp hne
      rw [proper_prefix_singleton hp hne] at hb
      simp at hb

theorem decodeVarintGo_all_cont :
    ∀ (p : List Nat) (i shift acc : Nat), (∀ b ∈ p, 128 ≤ b) → i + p.length ≤ 10 →
      decodeVarintGo p i shift acc = .error .incompleteVarint := by
  intro p
  induction p with
  | nil => intro i shift acc _ _; rfl
  | cons b rest ih =>
    intro i shift acc hall hlen
    have hb : 128 ≤ b := hall b (List.mem_cons_self b rest)
    simp only [List.length_cons] at hlen
    rw [decodeVarintGo]
    simp only [show ¬(i > 9) from by omega, if_false, show ¬(b < 128) from by omega]
    exact ih (i + 1) (shift + 7) _ (fun x hx => hall x (List.mem_cons_of_mem b hx)) (by omega)

theorem decodeVarint_enc_cut {n : Nat} (h : n < 2 ^ 64) {p : List Nat}
    (hp : p <+: encodeVarint n) (hne : p ≠ encodeVarint n) :
    decodeVarint p = .error .incompleteVarint := by
  have h10 : n < 128 ^ 10 := by
    calc n < 2 ^ 64 := h
    _ < 128 ^ 10 := by norm_num
  have hlen : (encodeVarint n).length ≤ 10 := by
    have := encodeVarintGo_length_le h10
    simpa [encodeVarint] using this
  have hplen : p.length < (encodeVarint n).length := by
    rcases Nat.lt_or_ge p.length (encodeVarint n).length with h1 | h1
    · exact h1
    · exact absurd (hp.eq_of_length_le h1) hne
  exact decodeVarintGo_all_cont p 0 0 0
    (encodeVarintGo_proper_prefix_ge 10 n p hp hne) (by omega)

/-! ### decodeElement branch shape lemmas -/

theorem getD_append_add (pre : List Nat) (l : List Nat) (k : Nat) :
    (pre ++ l).getD (pre.length + k) 0 = l.getD k 0 := by
  induction pre with
  | nil => simp
  | cons a t ih => simpa [Nat.succ_add] using ih

theorem decodeElementF_null (f : Nat) (pre suf : List Nat) :
    decodeElementF (f + 1) (pre ++ [0] ++ suf) pre.length = .ok .null (pre.length + 1) := by
  have hd : pre ++ [0] ++ suf = pre ++ 0 :: suf := by simp
  rw [hd]
  have hoff : ¬ pre.length ≥ (pre ++ 0 :: suf).length := by
    simp only [List.length_append, List.length_cons, ge_iff_le]
    omega
  have htag : (pre ++ 0 :: suf).getD pre.length 0 = 0 := getD_append_at pre 0 suf
  simp only [decodeElementF, hoff, if_false, htag]
  norm_num

theorem decodeElementF_text (f : Nat) (pre s suf : List Nat)
    (hs : validUtf8 s = true) (hlen : s.length < 9223372036854775808)
    (hdata : pre.length + (1 + (encodeVarint s.length).length + s.length) + suf.length
      < 9223372036854775808) :
    decodeElementF (f + 1) (pre ++ (1 :: (encodeVarint s.length ++ s)) ++ suf) pre.length =
      .ok (.text s) (pre.length + (1 + (encodeVarint s.length).length + s.length)) := by
  set L := encodeVarint s.length with hL
  have hd : pre ++ (1 :: (L ++ s)) ++ suf = pre ++ 1 :: (L ++ (s ++ suf)) := by simp
  rw [hd]
  set d := pre ++ 1 :: (L ++ (s ++ suf)) with hdd
  have hdlen : d.length = pre.length + 1 + L.length + s.length + suf.length := by
    simp [hdd]
    omega
  have hoff : ¬ pre.length ≥ d.length := by omega
  have htag : d.getD pre.length 0 = 1 := getD_append_at pre 1 (L ++ (s ++ suf))
  have hdrop : d.drop (pre.length + 1) = L ++ (s ++ suf) :=
    drop_append_cons pre 1 (L ++ (s ++ suf))
  have hvar : decodeVarint (L ++ (s ++ suf)) = .ok (s.length, L.length) :=
    decodeVarint_enc (by omega) (s ++ suf)
  have hcast : toInt64 s.length = (s.length : Int) := toInt64_of_lt hlen
  have hwrap : int64wrap (((pre.length + 1 + L.length : Nat) : Int) + (s.length : Int)) =
      ((pre.length + 1 + L.length : Nat) : Int) + (s.length : Int) := by
    apply int64wrap_eq_self
    · omega
    · push_cast
      omega
  have h1 : ¬ (((pre.length + 1 + L.length : Nat) : Int) + (s.length : Int) >
      (d.length : Int)) := by
    push_cast
    omega
  have h2 : ¬ (((pre.length + 1 + L.length : Nat) : Int) >
      ((pre.length + 1 + L.length : Nat) : Int) + (s.length : Int)) := by
    push_cast
    omega
  have hidx : ((((pre.length + 1 + L.length : Nat) : Int) + (s.length : Int)) -
      ((pre.length + 1 + L.length : Nat) : Int)).toNat = s.length := by
    push_cast
    omega
  have hdrop2 : d.drop (pre.length + 1 + L.length) = s ++ suf := by
    have h3 : d = (pre ++ [1] ++ L) ++ (s ++ suf) := by simp [hdd]
    rw [h3, List.drop_left' (by simp; omega)]
  have htake : (s ++ suf).take s.length = s := List.take_left' rfl
  have hfin : ((((pre.length + 1 + L.length : Nat) : Int) + (s.length : Int))).toNat =
      pre.length + (1 + L.length + s.length) := by
    push_cast
    omega
  simp only [decodeElementF, hoff, if_false, htag, hdrop, hvar, hcast, reduceIte]
  rw [hwrap]
  rw [if_neg h1, if_neg h2, hidx, hdrop2, htake, hs]
  simp only [reduceIte]
  rw [hfin]

theorem decodeElementF_int32 (f : Nat) (pre suf : List Nat) (i : Int)
    (hlo : -2147483648 ≤ i) (hhi : i < 2147483648) :
    decodeElementF (f + 1) (pre ++ (2 :: int32LE i) ++ suf) pre.length =
      .ok (.int32 i) (pre.length + 5) := by
  set u := toUInt32Pat i with hu
  have hu32 : u < 4294967296 := by
    have : (0 : Int) ≤ i % 4294967296 := Int.emod_nonneg i (by norm_num)
    have h2 : i % 4294967296 < 4294967296 := Int.emod_lt_of_pos i (by norm_num)
    simp only [hu, toUInt32Pat]
    omega
  have hval : int32LE i = [u % 256, u / 256 % 256, u / 65536 % 256, u / 16777216 % 256] := rfl
  have hd : pre ++ (2 :: int32LE i) ++ suf =
      pre ++ 2 :: (u % 256 :: u / 256 % 256 :: u / 65536 % 256 :: u / 16777216 % 256 :: suf) := by
    simp [hval]
  rw [hd]
  set rest := u % 256 :: u / 256 % 256 :: u / 65536 % 256 :: u / 16777216 % 256 :: suf
    with hrest
  set d := pre ++ 2 :: rest with hdd
  have hdlen : d.length = pre.length + 5 + suf.length := by
    simp [hdd, hrest]
    omega
  have hoff : ¬ pre.length ≥ d.length := by omega
  have htag : d.getD pre.length 0 = 2 := getD_append_at pre 2 rest
  have hbound : ¬ (pre.length + 1 + 4 > d.length) := by omega
  have hb0 : d.getD (pre.length + 1) 0 = u % 256 := by
    rw [hdd, hrest, getD_append_add pre _ 1]
    rfl
  have hb1 : d.getD (pre.length + 1 + 1) 0 = u / 256 % 256 := by
    rw [show pre.length + 1 + 1 = pre.length + 2 from by omega, hdd, hrest,
      getD_append_add pre _ 2]
    rfl
  have hb2 : d.getD (pre.length + 1 + 2) 0 = u / 65536 % 256 := by
    rw [show pre.length + 1 + 2 = pre.length + 3 from by omega, hdd, hrest,
      getD_append_add pre _ 3]
    rfl
  have hb3 : d.getD (pre.length + 1 + 3) 0 = u / 16777216 % 256 := by
    rw [show pre.length + 1 + 3 = pre.length + 4 from by omega, hdd, hrest,
      getD_append_add pre _ 4]
    rfl
  have hcomb : u % 256 ||| u / 256 % 256 * 256 ||| u / 65536 % 256 * 65536 |||
      u / 16777216 % 256 * 16777216 = u := by
    have e1 : u % 256 ||| u / 256 % 256 * 256 = u % 256 + u / 256 % 256 * 256 := by
      have h8 : u % 256 < 2 ^ 8 := by omega
      have := lor_mul_two_pow (b := u / 256 % 256) h8
      simpa using this
    have e2 : u % 256 + u / 256 % 256 * 256 ||| u / 65536 % 256 * 65536 =
        u % 256 + u / 256 % 256 * 256 + u / 65536 % 256 * 65536 := by
      have h16 : u % 256 + u / 256 % 256 * 256 < 2 ^ 16 := by omega
      have := lor_mul_two_pow (b := u / 65536 % 256) h16
      simpa using this
    have e3 : u % 256 + u / 256 % 256 * 256 + u / 65536 % 256 * 65536 |||
        u / 16777216 % 256 * 16777216 =
        u % 256 + u / 256 % 256 * 256 + u / 65536 % 256 * 65536 +
          u / 16777216 % 256 * 16777216 := by
      have h24 : u % 256 + u / 256 % 256 * 256 + u / 65536 % 256 * 65536 < 2 ^ 24 := by omega
      have := lor_mul_two_pow (b := u / 16777216 % 256) h24
      simpa using this
    rw [e1, e2, e3]
    omega
  have hback : (if u < 2147483648 then (u : Int) else (u : Int) - 4294967296) = i := by
    have hmod : (u : Int) = i % 4294967296 := by
      simp only [hu, toUInt32Pat]
      have : (0 : Int) ≤ i % 4294967296 := Int.emod_nonneg i (by norm_num)
      omega
    by_cases hcase : u < 2147483648
    · rw [if_pos hcase, hmod]
      omega
    · rw [if_neg hcase, hmod]
      omega
  simp only [decodeElementF, hoff, if_false, htag, hbound, hb0, hb1, hb2, hb3, reduceIte]
  rw [hcomb, hback]
  rfl

/-! ### Well-formedness facts about the encoder -/

theorem wf_encOk : ∀ v, wfValue v = true → (encodeElement v).2 = true := by
  intro v
  induction v using Value.inductionOn with
  | hnull => intro; rfl
  | htext s => intro; rfl
  | hint i => intro; rfl
  | huns => intro h; simp [wfValue] at h
  | hlist es ih =>
    intro hwf
    simp only [wfValue, Bool.and_eq_true, decide_eq_true_eq] at hwf
    obtain ⟨-, hwl⟩ := hwf
    have key : ∀ vs, (∀ v ∈ vs, v ∈ es) → wfList vs = true → (encodeList vs).2 = true := by
      intro vs
      induction vs with
      | nil => intro _ _; rfl
      | cons v rest ihr =>
        intro hmem hw
        simp only [wfList, Bool.and_eq_true] at hw
        have h1 : (encodeElement v).2 = true :=
          ih v (hmem v (List.mem_cons_self v rest)) hw.1
        have h2 : (encodeList rest).2 = true :=
          ihr (fun x hx => hmem x (List.mem_cons_of_mem v hx)) hw.2
        simp [encodeList, h1, h2]
    simpa [encodeElement] using key es (fun _ h => h) hwl

theorem encodeList_cons_ok {v : Value} (vs : List Value)
    (h : (encodeElement v).2 = true) :
    (encodeList (v :: vs)).1 = (encodeElement v).1 ++ (encodeList vs).1 := by
  simp [encodeList, h]

theorem encList_length {es : List Value} (hwf : wfList es = true)
    (ih : ∀ v ∈ es, wfValue v = true → (encodeElement v).2 = true) :
    ∀ v ∈ es, (encodeElement v).1.length ≤ (encodeList es).1.length := by
  induction es with
  | nil => intro v hv; simp at hv
  | cons w ws ihr =>
    intro v hv
    simp only [wfList, Bool.and_eq_true] at hwf
    have hok : (encodeElement w).2 = true := ih w (List.mem_cons_self w ws) hwf.1
    rw [encodeList_cons_ok ws hok]
    rcases List.mem_cons.mp hv with h | h
    · subst h; simp
    · have := ihr hwf.2 (fun x hx => ih x (List.mem_cons_of_mem w hx)) v h
      simp
      omega

theorem depth_le_encLength : ∀ v, wfValue v = true →
    depthValue v ≤ (encodeElement v).1.length := by
  intro v
  induction v using Value.inductionOn with
  | hnull => intro; simp [depthValue, encodeElement]
  | htext s => intro; simp [depthValue, encodeElement]
  | hint i => intro; simp [depthValue, encodeElement]
  | huns => intro h; simp [wfValue] at h
  | hlist es ih =>
    intro hwf
    simp only [wfValue, Bool.and_eq_true, decide_eq_true_eq] at hwf
    obtain ⟨-, hwl⟩ := hwf
    have key : ∀ vs, (∀ v ∈ vs, v ∈ es) → wfList vs = true →
        depthList vs ≤ (encodeList vs).1.length := by
      intro vs
      induction vs with
      | nil => intro _ _; simp [depthList, encodeList]
      | cons v rest ihr =>
        intro hmem hw
        simp only [wfList, Bool.and_eq_true] at hw
        have h1 : depthValue v ≤ (encodeElement v).1.length :=
          ih v (hmem v (List.mem_cons_self v rest)) hw.1
        have hok : (encodeElement v).2 = true :=
          wf_encOk v hw.1
        have h2 : depthList rest ≤ (encodeList rest).1.length :=
          ihr (fun x hx => hmem x (List.mem_cons_of_mem v hx)) hw.2
        rw [encodeList_cons_ok rest hok]
        simp only [depthList, List.length_append]
        omega
    have hv : 1 ≤ (encodeVarint es.length).length := by
      rcases hx : encodeVarint es.length with _ | ⟨a, t⟩
      · exact absurd hx (encodeVarintGo_ne_nil 10 es.length)
      · simp
    simp only [encodeElement, depthValue, List.length_cons, List.length_append]
    have := key es (fun _ h => h) hwl
    omega

theorem decodeElementF_listHeader (f : Nat) (pre B suf : List Nat) (k : Nat)
    (hk : k < 9223372036854775808) :
    decodeElementF (f + 1) (pre ++ (3 :: (encodeVarint k ++ B)) ++ suf) pre.length =
      (match decodeLoop (decodeElementF f (pre ++ (3 :: (encodeVarint k ++ B)) ++ suf)) k
          (pre.length + 1 + (encodeVarint k).length) with
        | .ok vs offF => .ok (.list vs) offF
        | .err e => .err e
        | .panicSliceBounds => .panicSliceBounds
        | .panicMakeCap => .panicMakeCap
        | .outOfFuel => .outOfFuel) := by
  set V := encodeVarint k with hV
  have hd : pre ++ (3 :: (V ++ B)) ++ suf = pre ++ 3 :: (V ++ (B ++ suf)) := by simp
  rw [hd]
  set d := pre ++ 3 :: (V ++ (B ++ suf)) with hdd
  have hoff : ¬ pre.length ≥ d.length := by
    simp only [hdd, List.length_append, List.length_cons, ge_iff_le]
    omega
  have htag : d.getD pre.length 0 = 3 := getD_append_at pre 3 (V ++ (B ++ suf))
  have hdrop : d.drop (pre.length + 1) = V ++ (B ++ suf) := drop_append_cons pre 3 _
  have hvar : decodeVarint (V ++ (B ++ suf)) = .ok (k, V.length) :=
    decodeVarint_enc (by omega) (B ++ suf)
  have hnp : ¬ (k ≥ 9223372036854775808) := by omega
  simp only [decodeElementF, hoff, if_false, htag, hdrop, hvar, hnp, reduceIte]
  rfl

/-! ### Round trip -/

def RTstmt (v : Value) : Prop :=
  wfValue v = true → ∀ f pre suf, depthValue v ≤ f →
    (pre ++ (encodeElement v).1 ++ suf).length < 9223372036854775808 →
    decodeElementF f (pre ++ (encodeElement v).1 ++ suf) pre.length =
      .ok v (pre.length + (encodeElement v).1.length)

theorem rt_loop (es : List Value) (ih : ∀ v ∈ es, RTstmt v) (hwf : wfList es = true) :
    ∀ f pre suf, depthList es ≤ f →
      (pre ++ (encodeList es).1 ++ suf).length < 9223372036854775808 →
      decodeLoop (decodeElementF f (pre ++ (encodeList es).1 ++ suf)) es.length pre.length =
        .ok es (pre.length + (encodeList es).1.length) := by
  induction es with
  | nil =>
    intro f pre suf _ _
    simp [encodeList, decodeLoop]
  | cons v vs ihr =>
    intro f pre suf hdep hbound
    simp only [wfList, Bool.and_eq_true] at hwf
    have hok : (encodeElement v).2 = true := wf_encOk v hwf.1
    have hcons := encodeList_cons_ok vs hok
    simp only [depthList] at hdep
    rw [hcons] at hbound ⊢
    have hd1 : pre ++ ((encodeElement v).1 ++ (encodeList vs).1) ++ suf =
        pre ++ (encodeElement v).1 ++ ((encodeList vs).1 ++ suf) := by simp
    rw [hd1] at hbound ⊢
    have hfirst := ih v (List.mem_cons_self v vs) hwf.1 f pre ((encodeList vs).1 ++ suf)
      (by omega) hbound
    rw [List.length_cons]
    rw [decodeLoop, hfirst]
    dsimp only
    have hd2 : pre ++ (encodeElement v).1 ++ ((encodeList vs).1 ++ suf) =
        (pre ++ (encodeElement v).1) ++ (encodeList vs).1 ++ suf := by simp
    rw [hd2]
    have hpl : pre.length + (encodeElement v).1.length =
        (pre ++ (encodeElement v).1).length := by simp
    rw [hpl]
    rw [ihr (fun x hx => ih x (List.mem_cons_of_mem v hx)) hwf.2 f
      (pre ++ (encodeElement v).1) suf (by omega) (by rw [← hd2]; exact hbound)]
    simp only [List.length_append]
    congr 1
    omega

theorem rt_all : ∀ v, RTstmt v := by
  intro v
  induction v using Value.inductionOn with
  | hnull =>
    intro _ f pre suf hdep hbound
    simp only [depthValue] at hdep
    obtain ⟨f2, rfl⟩ : ∃ f2, f = f2 + 1 := ⟨f - 1, by omega⟩
    have := decodeElementF_null f2 pre suf
    simpa [encodeElement] using this
  | htext s =>
    intro hwf f pre suf hdep hbound
    simp only [wfValue, Bool.and_eq_true, decide_eq_true_eq] at hwf
    simp only [depthValue] at hdep
    obtain ⟨f2, rfl⟩ : ∃ f2, f = f2 + 1 := ⟨f - 1, by omega⟩
    have hb2 : pre.length + (1 + (encodeVarint s.length).length + s.length) + suf.length
        < 9223372036854775808 := by
      simp only [encodeElement, List.length_append, List.length_cons] at hbound
      omega
    have := decodeElementF_text f2 pre s suf hwf.1 hwf.2 hb2
    have hlen : pre.length + (1 + (encodeVarint s.length).length + s.length) =
        pre.length + (encodeElement (Value.text s)).1.length := by
      simp [encodeElement]
      omega
    rw [hlen] at this
    simpa [encodeElement] using this
  | hint i =>
    intro hwf f pre suf hdep hbound
    simp only [wfValue, Bool.and_eq_true, decide_eq_true_eq] at hwf
    simp only [depthValue] at hdep
    obtain ⟨f2, rfl⟩ : ∃ f2, f = f2 + 1 := ⟨f - 1, by omega⟩
    have := decodeElementF_int32 f2 pre suf i hwf.1 hwf.2
    have hlen : pre.length + 5 = pre.length + (encodeElement (Value.int32 i)).1.length := by
      simp [encodeElement, int32LE]
    rw [hlen] at this
    simpa [encodeElement] using this
  | huns =>
    intro hwf
    simp [wfValue] at hwf
  | hlist es ih =>
    intro hwf f pre suf hdep hbound
    simp only [wfValue, Bool.and_eq_true, decide_eq_true_eq] at hwf
    simp only [depthValue] at hdep
    obtain ⟨f2, rfl⟩ : ∃ f2, f = f2 + 1 := ⟨f - 1, by omega⟩
    have hshape : (encodeElement (Value.list es)).1 =
        3 :: (encodeVarint es.length ++ (encodeList es).1) := rfl
    rw [hshape] at hbound ⊢
    rw [decodeElementF_listHeader f2 pre (encodeList es).1 suf es.length hwf.1]
    have hd2 : pre ++ (3 :: (encodeVarint es.length ++ (encodeList es).1)) ++ suf =
        (pre ++ [3] ++ encodeVarint es.length) ++ (encodeList es).1 ++ suf := by simp
    have hpl : pre.length + 1 + (encodeVarint es.length).length =
        (pre ++ [3] ++ encodeVarint es.length).length := by simp; omega
    rw [hd2, hpl]
    rw [rt_loop es ih hwf.2 f2 (pre ++ [3] ++ encodeVarint es.length) suf (by omega)
      (by rw [← hd2]; simpa using hbound)]
    simp only [List.length_append, List.length_cons]
    congr 1
    simp
    omega

theorem compare_refl : ∀ v, wfValue v = true → compareDataInput v v = true := by
  intro v
  induction v using Value.inductionOn with
  | hnull => intro _; rfl
  | htext s => intro _; simp [compareDataInput]
  | hint i => intro _; simp [compareDataInput]
  | huns => intro h; simp [wfValue] at h
  | hlist es ih =>
    intro hwf
    simp only [wfValue, Bool.and_eq_true, decide_eq_true_eq] at hwf
    have key : ∀ vs, (∀ v ∈ vs, v ∈ es) → wfList vs = true → compareElems vs vs = true := by
      intro vs
      induction vs with
      | nil => intro _ _; rfl
      | cons v rest ihr =>
        intro hmem hw
        simp only [wfList, Bool.and_eq_true] at hw
        simp [compareElems, ih v (hmem v (List.mem_cons_self v rest)) hw.1,
          ihr (fun x hx => hmem x (List.mem_cons_of_mem v hx)) hw.2]
    simp [compareDataInput, key es (fun _ h => h) hwf.2]

theorem decodeElement_encode (v : Value) (hwf : wfValue v = true)
    (hsize : (encode v).length < 9223372036854775808) :
    decodeElement (encode v) 0 = .ok v (encode v).length := by
  have hdep : depthValue v ≤ (encode v).length + 1 := by
    have := depth_le_encLength v hwf
    simp only [encode] at hsize ⊢
    omega
  have := rt_all v hwf ((encode v).length + 1) [] []
    (by simpa [encode] using hdep) (by simpa [encode] using hsize)
  simpa [decodeElement, encode] using this

theorem decodeElement_encode_trailing (v : Value) (t : List Nat) (hwf : wfValue v = true)
    (hsize : (encode v).length + t.length < 9223372036854775808) :
    decodeElement (encode v ++ t) 0 = .ok v (encode v).length := by
  have hdep : depthValue v ≤ (encode v ++ t).length + 1 := by
    have := depth_le_encLength v hwf
    simp only [encode, List.length_append] at hsize ⊢
    omega
  have := rt_all v hwf ((encode v ++ t).length + 1) [] t
    (by simpa [encode] using hdep) (by simpa [encode] using hsize)
  simpa [decodeElement, encode] using this

/-! ### Truncated input -/

/-- Result is a truncation-kind decode error. -/
def truncRes (r : DResult) : Prop := ∃ e, r = .err e ∧ e.isTruncation = true

/-- Loop result is a truncation-kind decode error. -/
def truncDL (r : DLRes) : Prop := ∃ e, r = .err e ∧ e.isTruncation = true

theorem decodeElementF_end (f : Nat) (d : List Nat) (off : Nat) (h : off ≥ d.length) :
    decodeElementF (f + 1) d off = .err .unexpectedEnd := by
  simp [decodeElementF, h]

theorem decodeElementF_tag1_err (f : Nat) (pre q : List Nat) (e : DErr)
    (he : decodeVarint q = .error e) :
    decodeElementF (f + 1) (pre ++ 1 :: q) pre.length = .err e := by
  have hoff : ¬ pre.length ≥ (pre ++ 1 :: q).length := by
    simp only [List.length_append, List.length_cons, ge_iff_le]
    omega
  have htag : (pre ++ 1 :: q).getD pre.length 0 = 1 := getD_append_at pre 1 q
  have hdrop : (pre ++ 1 :: q).drop (pre.length + 1) = q := drop_append_cons pre 1 q
  simp only [decodeElementF, hoff, if_false, htag, hdrop, he]
  rfl

theorem decodeElementF_tag3_err (f : Nat) (pre q : List Nat) (e : DErr)
    (he : decodeVarint q = .error e) :
    decodeElementF (f + 1) (pre ++ 3 :: q) pre.length = .err e := by
  have hoff : ¬ pre.length ≥ (pre ++ 3 :: q).length := by
    simp only [List.length_append, List.length_cons, ge_iff_le]
    omega
  have htag : (pre ++ 3 :: q).getD pre.length 0 = 3 := getD_append_at pre 3 q
  have hdrop : (pre ++ 3 :: q).drop (pre.length + 1) = q := drop_append_cons pre 3 q
  simp only [decodeElementF, hoff, if_false, htag, hdrop, he]
  rfl

theorem decodeElementF_text_trunc (f : Nat) (pre r : List Nat) (n : Nat)
    (hn : n < 9223372036854775808) (hr : r.length < n)
    (hnw : pre.length + 1 + (encodeVarint n).length + n < 9223372036854775808) :
    decodeElementF (f + 1) (pre ++ 1 :: (encodeVarint n ++ r)) pre.length =
      .err .stringLengthExceeds := by
  set V := encodeVarint n with hV
  set d := pre ++ 1 :: (V ++ r) with hdd
  have hdlen : d.length = pre.length + 1 + V.length + r.length := by
    simp [hdd]
    omega
  have hoff : ¬ pre.length ≥ d.length := by omega
  have htag : d.getD pre.length 0 = 1 := getD_append_at pre 1 (V ++ r)
  have hdrop : d.drop (pre.length + 1) = V ++ r := drop_append_cons pre 1 (V ++ r)
  have hvar : decodeVarint (V ++ r) = .ok (n, V.length) := decodeVarint_enc (by omega) r
  have hcast : toInt64 n = (n : Int) := toInt64_of_lt hn
  have hwrap : int64wrap (((pre.length + 1 + V.length : Nat) : Int) + (n : Int)) =
      ((pre.length + 1 + V.length : Nat) : Int) + (n : Int) := by
    apply int64wrap_eq_self
    · omega
    · push_cast
      omega
  have hgt : ((pre.length + 1 + V.length : Nat) : Int) + (n : Int) > (d.length : Int) := by
    push_cast
    omega
  simp only [decodeElementF, hoff, if_false, htag, hdrop, hvar, hcast]
  rw [hwrap]
  rw [if_pos hgt]
  rfl

theorem decodeElementF_int32_trunc (f : Nat) (pre q : List Nat) (hq : q.length < 4) :
    decodeElementF (f + 1) (pre ++ 2 :: q) pre.length = .err .insufficientInt32 := by
  have hoff : ¬ pre.length ≥ (pre ++ 2 :: q).length := by
    simp only [List.length_append, List.length_cons, ge_iff_le]
    omega
  have htag : (pre ++ 2 :: q).getD pre.length 0 = 2 := getD_append_at pre 2 q
  have hbound : pre.length + 1 + 4 > (pre ++ 2 :: q).length := by
    simp only [List.length_append, List.length_cons, gt_iff_lt]
    omega
  simp only [decodeElementF, hoff, if_false, htag, hbound]
  rfl

theorem prefix_cons {α : Type} {p : List α} {c : α} {X : List α} (h : p <+: c :: X) :
    p = [] ∨ ∃ q, p = c :: q ∧ q <+: X := by
  cases p with
  | nil => exact Or.inl rfl
  | cons a q =>
    obtain ⟨t, ht⟩ := h
    simp only [List.cons_append] at ht
    obtain ⟨h1, h2⟩ := List.cons.inj ht
    subst h1
    exact Or.inr ⟨q, rfl, ⟨t, h2⟩⟩

theorem proper_prefix_length_lt {α : Type} {p l : List α} (h : p <+: l) (hne : p ≠ l) :
    p.length < l.length := by
  rcases Nat.lt_or_ge p.length l.length with h1 | h1
  · exact h1
  · exact absurd (h.eq_of_length_le h1) hne

theorem enc_ne_nil (v : Value) (h : wfValue v = true) : (encodeElement v).1 ≠ [] := by
  cases v with
  | null => simp [encodeElement]
  | text s => simp [encodeElement]
  | int32 i => simp [encodeElement]
  | list es => simp [encodeElement]
  | unsupported => simp [wfValue] at h

theorem encodeVarint_length_pos (n : Nat) : 1 ≤ (encodeVarint n).length := by
  rcases hx : encodeVarint n with _ | ⟨a, t⟩
  · exact absurd hx (encodeVarintGo_ne_nil 10 n)
  · simp

def PDstmt (v : Value) : Prop :=
  wfValue v = true → ∀ f pre p, p <+: (encodeElement v).1 → p ≠ (encodeElement v).1 →
    p.length < f → pre.length + (encodeElement v).1.length < 9223372036854775808 →
    truncRes (decodeElementF f (pre ++ p) pre.length)

theorem pd_loop (es : List Value) (ih : ∀ v ∈ es, PDstmt v) (hwf : wfList es = true) :
    ∀ f pre r, r <+: (encodeList es).1 → r ≠ (encodeList es).1 →
      r.length + 1 < f → pre.length + (encodeList es).1.length < 9223372036854775808 →
      truncDL (decodeLoop (decodeElementF f (pre ++ r)) es.length pre.length) := by
  induction es with
  | nil =>
    intro f pre r hp hne _ _
    rw [show (encodeList []).1 = [] from rfl] at hp hne
    exact absurd (List.prefix_nil.mp hp) hne
  | cons v vs ihr =>
    intro f pre r hp hne hf hbound
    simp only [wfList, Bool.and_eq_true] at hwf
    have hok : (encodeElement v).2 = true := wf_encOk v hwf.1
    have hcons := encodeList_cons_ok vs hok
    rw [hcons] at hp hne hbound
    have hnn := enc_ne_nil v hwf.1
    rcases prefix_split hp with ⟨hpv, hpne⟩ | ⟨r2, rfl, hr2⟩
    · -- r cuts inside the first element's encoding
      have hplen : r.length < (encodeElement v).1.length := proper_prefix_length_lt hpv hpne
      have hres := ih v (List.mem_cons_self v vs) hwf.1 f pre r hpv hpne (by omega)
        (by simp only [List.length_append] at hbound; omega)
      obtain ⟨e, heq, htr⟩ := hres
      rw [List.length_cons, decodeLoop, heq]
      exact ⟨e, rfl, htr⟩
    · -- r covers the first element and cuts inside the rest
      have hr2ne : r2 ≠ (encodeList vs).1 := by
        intro he
        subst he
        exact hne rfl
      have hr2len : r2.length < (encodeList vs).1.length := proper_prefix_length_lt hr2 hr2ne
      have hvlen : 1 ≤ (encodeElement v).1.length := by
        rcases hx : (encodeElement v).1 with _ | ⟨a, t⟩
        · exact absurd hx hnn
        · simp
      have hd1 : pre ++ ((encodeElement v).1 ++ r2) = pre ++ (encodeElement v).1 ++ r2 := by
        simp
      rw [hd1]
      have hfirst := rt_all v hwf.1 f pre r2
        (by
          have hd := depth_le_encLength v hwf.1
          simp only [List.length_append] at hf
          omega)
        (by
          simp only [List.length_append] at hbound ⊢
          omega)
      rw [List.length_cons, decodeLoop, hfirst]
      dsimp only
      have hd2 : pre ++ (encodeElement v).1 ++ r2 = (pre ++ (encodeElement v).1) ++ r2 := by
        simp
      have hpl : pre.length + (encodeElement v).1.length =
          (pre ++ (encodeElement v).1).length := by simp
      rw [hd2, hpl]
      have hres := ihr (fun x hx => ih x (List.mem_cons_of_mem v hx)) hwf.2 f
        (pre ++ (encodeElement v).1) r2 hr2 hr2ne
        (by simp only [List.length_append] at hf; omega)
        (by simp only [List.length_append] at hbound ⊢; omega)
      obtain ⟨e, heq, htr⟩ := hres
      rw [heq]
      exact ⟨e, rfl, htr⟩

theorem pd_all : ∀ v, PDstmt v := by
  intro v
  induction v using Value.inductionOn with
  | hnull =>
    intro _ f pre p hp hne hf _
    rw [show (encodeElement Value.null).1 = [0] from rfl] at hp hne
    have hp0 : p = [] := proper_prefix_singleton hp hne
    subst hp0
    obtain ⟨f2, rfl⟩ : ∃ f2, f = f2 + 1 := ⟨f - 1, by omega⟩
    rw [List.append_nil]
    rw [decodeElementF_end f2 pre pre.length (le_refl _)]
    exact ⟨.unexpectedEnd, rfl, rfl⟩
  | htext s =>
    intro hwf f pre p hp hne hf hbound
    simp only [wfValue, Bool.and_eq_true, decide_eq_true_eq] at hwf
    rw [show (encodeElement (Value.text s)).1 =
      1 :: (encodeVarint s.length ++ s) from rfl] at hp hne hbound
    rcases prefix_cons hp with rfl | ⟨q, rfl, hq⟩
    · obtain ⟨f2, rfl⟩ : ∃ f2, f = f2 + 1 := ⟨f - 1, by omega⟩
      rw [List.append_nil, decodeElementF_end f2 pre pre.length (le_refl _)]
      exact ⟨.unexpectedEnd, rfl, rfl⟩
    · obtain ⟨f2, rfl⟩ : ∃ f2, f = f2 + 1 := ⟨f - 1, by omega⟩
      rcases prefix_split hq with ⟨hqv, hqne⟩ | ⟨r, rfl, hrs⟩
      · have he := decodeVarint_enc_cut (n := s.length) (by omega) hqv hqne
        rw [decodeElementF_tag1_err f2 pre q .incompleteVarint he]
        exact ⟨.incompleteVarint, rfl, rfl⟩
      · have hrne : r ≠ s := by
          intro hh
          subst hh
          exact hne rfl
        have hrlen : r.length < s.length := proper_prefix_length_lt hrs hrne
        rw [decodeElementF_text_trunc f2 pre r s.length hwf.2 hrlen
          (by simp only [List.length_cons, List.length_append] at hbound; omega)]
        exact ⟨.stringLengthExceeds, rfl, rfl⟩
  | hint i =>
    intro hwf f pre p hp hne hf hbound
    rw [show (encodeElement (Value.int32 i)).1 = 2 :: int32LE i from rfl] at hp hne
    rcases prefix_cons hp with rfl | ⟨q, rfl, hq⟩
    · obtain ⟨f2, rfl⟩ : ∃ f2, f = f2 + 1 := ⟨f - 1, by omega⟩
      rw [List.append_nil, decodeElementF_end f2 pre pre.length (le_refl _)]
      exact ⟨.unexpectedEnd, rfl, rfl⟩
    · obtain ⟨f2, rfl⟩ : ∃ f2, f = f2 + 1 := ⟨f - 1, by omega⟩
      have hqne : q ≠ int32LE i := by
        intro hh
        subst hh
        exact hne rfl
      have hql : q.length < 4 := by
        have := proper_prefix_length_lt hq hqne
        simpa [int32LE] using this
      rw [decodeElementF_int32_trunc f2 pre q hql]
      exact ⟨.insufficientInt32, rfl, rfl⟩
  | huns =>
    intro hwf
    simp [wfValue] at hwf
  | hlist es ih =>
    intro hwf f pre p hp hne hf hbound
    simp only [wfValue, Bool.and_eq_true, decide_eq_true_eq] at hwf
    rw [show (encodeElement (Value.list es)).1 =
      3 :: (encodeVarint es.length ++ (encodeList es).1) from rfl] at hp hne hbound
    rcases prefix_cons hp with rfl | ⟨q, rfl, hq⟩
    · obtain ⟨f2, rfl⟩ : ∃ f2, f = f2 + 1 := ⟨f - 1, by omega⟩
      rw [List.append_nil, decodeElementF_end f2 pre pre.length (le_refl _)]
      exact ⟨.unexpectedEnd, rfl, rfl⟩
    · obtain ⟨f2, rfl⟩ : ∃ f2, f = f2 + 1 := ⟨f - 1, by omega⟩
      rcases prefix_split hq with ⟨hqv, hqne⟩ | ⟨r, rfl, hrs⟩
      · have he := decodeVarint_enc_cut (n := es.length) (by omega) hqv hqne
        rw [decodeElementF_tag3_err f2 pre q .incompleteVarint he]
        exact ⟨.incompleteVarint, rfl, rfl⟩
      · have hrne : r ≠ (encodeList es).1 := by
          intro hh
          subst hh
          exact hne rfl
        have hrlen : r.length < (encodeList es).1.length := proper_prefix_length_lt hrs hrne
        have hd0 : pre ++ 3 :: (encodeVarint es.length ++ r) =
            pre ++ (3 :: (encodeVarint es.length ++ r)) ++ [] := by simp
        rw [hd0, decodeElementF_listHeader f2 pre r [] es.length hwf.1]
        have hd2 : pre ++ (3 :: (encodeVarint es.length ++ r)) ++ [] =
            (pre ++ [3] ++ encodeVarint es.length) ++ r := by simp
        have hpl : pre.length + 1 + (encodeVarint es.length).length =
            (pre ++ [3] ++ encodeVarint es.length).length := by simp; omega
        rw [hd2, hpl]
        have hvl := encodeVarint_length_pos es.length
        have hres := pd_loop es ih hwf.2 f2 (pre ++ [3] ++ encodeVarint es.length) r hrs hrne
          (by simp only [List.length_cons, List.length_append] at hf; omega)
          (by
            simp only [List.length_cons, List.length_append, List.length_nil] at hbound ⊢
            omega)
        obtain ⟨e, heq, htr⟩ := hres
        rw [heq]
        exact ⟨e, rfl, htr⟩

/-! ### Varint size and canonicality -/

theorem size_div128 {n : Nat} (h : n ≥ 128) : (n / 128).size = n.size - 7 := by
  have h8 : 8 ≤ n.size := by
    have : 7 < n.size := Nat.lt_size.mpr (by norm_num; omega)
    omega
  have hup : n / 128 < 2 ^ (n.size - 7) := by
    rw [Nat.div_lt_iff_lt_mul (by norm_num)]
    calc n < 2 ^ n.size := Nat.lt_size_self n
    _ = 2 ^ (n.size - 7) * 128 := by
        rw [show (128 : Nat) = 2 ^ 7 from by norm_num, ← pow_add]
        congr 1
        omega
  have hlo : 2 ^ (n.size - 8) ≤ n / 128 := by
    rw [Nat.le_div_iff_mul_le (by norm_num)]
    calc 2 ^ (n.size - 8) * 128 = 2 ^ (n.size - 1) := by
          rw [show (128 : Nat) = 2 ^ 7 from by norm_num, ← pow_add]
          congr 1
          omega
    _ ≤ n := by
        have := Nat.lt_size.mp (show n.size - 1 < n.size from by omega)
        exact this
  have h1 : (n / 128).size ≤ n.size - 7 := Nat.size_le.mpr hup
  have h2 : n.size - 8 < (n / 128).size := Nat.lt_size.mpr hlo
  omega

theorem encodeVarintGo_length_eq {f n : Nat} (h : n < 128 ^ f) :
    (encodeVarintGo f n).length = max 1 ((n.size + 6) / 7) := by
  induction f generalizing n with
  | zero =>
    have h0 : n = 0 := by simpa using h
    subst h0
    simp [encodeVarintGo, Nat.size_eq_zero.mpr rfl]
  | succ f ih =>
    by_cases hge : n ≥ 128
    · have hh : n / 128 < 128 ^ f := by
        rw [Nat.div_lt_iff_lt_mul (by norm_num)]
        calc n < 128 ^ (f + 1) := h
        _ = 128 ^ f * 128 := by rw [pow_succ]
      have hrec := ih hh
      have hsz := size_div128 hge
      have h8 : 8 ≤ n.size := by
        have : 7 < n.size := Nat.lt_size.mpr (by norm_num; omega)
        omega
      rw [show encodeVarintGo (f + 1) n =
        (n % 128 + 128) :: encodeVarintGo f (n / 128) from by simp [encodeVarintGo, hge]]
      rw [List.length_cons, hrec, hsz]
      omega
    · have hsz : n.size ≤ 7 := Nat.size_le.mpr (by norm_num; omega)
      rw [show encodeVarintGo (f + 1) n = [n] from by simp [encodeVarintGo, hge]]
      simp only [List.length_cons, List.length_nil]
      omega

theorem encodeVarint_length_eq {n : Nat} (h : n < 2 ^ 64) :
    (encodeVarint n).length = max 1 ((n.size + 6) / 7) :=
  encodeVarintGo_length_eq (by
    calc n < 2 ^ 64 := h
    _ < 128 ^ 10 := by norm_num)

theorem encodeVarintGo_getLast {f n : Nat} (h : n < 128 ^ f) :
    ∃ b, (encodeVarintGo f n).getLast? = some b ∧ b < 128 ∧ (0 < n → 0 < b) := by
  induction f generalizing n with
  | zero =>
    have h0 : n = 0 := by simpa using h
    subst h0
    exact ⟨0, rfl, by norm_num, by omega⟩
  | succ f ih =>
    by_cases hge : n ≥ 128
    · have hh : n / 128 < 128 ^ f := by
        rw [Nat.div_lt_iff_lt_mul (by norm_num)]
        calc n < 128 ^ (f + 1) := h
        _ = 128 ^ f * 128 := by rw [pow_succ]
      obtain ⟨b, hb, hb1, hb2⟩ := ih hh
      refine ⟨b, ?_, hb1, fun _ => hb2 (by omega)⟩
      rw [show encodeVarintGo (f + 1) n =
        (n % 128 + 128) :: encodeVarintGo f (n / 128) from by simp [encodeVarintGo, hge]]
      rcases hx : encodeVarintGo f (n / 128) with _ | ⟨a, t⟩
      · exact absurd hx (encodeVarintGo_ne_nil f (n / 128))
      · rw [hx] at hb
        rw [List.getLast?_cons_cons]
        exact hb
    · rw [show encodeVarintGo (f + 1) n = [n] from by simp [encodeVarintGo, hge]]
      exact ⟨n, rfl, by omega, fun hh => hh⟩

/-! ### The encoder on unsupported elements -/

theorem encodeList_with_bad (good rest : List Value)
    (h : ∀ g ∈ good, (encodeElement g).2 = true) :
    encodeList (good ++ Value.unsupported :: rest) =
      ((good.map (fun g => (encodeElement g).1)).flatten, false) := by
  induction good with
  | nil => simp [encodeList, encodeElement]
  | cons g gs ih =>
    have hg : (encodeElement g).2 = true := h g (List.mem_cons_self g gs)
    have hrec := ih (fun x hx => h x (List.mem_cons_of_mem g hx))
    simp only [List.cons_append, encodeList, hg, if_true, List.append_eq, hrec,
      List.map_cons, List.flatten_cons]

/-! ### The claims -/

/-- C1: Round-trip.  For every value built from the four model shapes — nil,
a Go string whose bytes are valid UTF-8, an int32, or a DataInput whose
elements are themselves such values, at any nesting depth — with a
Go-representable encoding, decode(encode(v)) succeeds: decodeElement
consumes exactly the encoding and returns a value structurally equal to v,
top-level decode returns it, and compareDataInput of original and result is
true. -/
theorem claim_roundtrip (v : Value) (hwf : wfValue v = true)
    (hsize : (encode v).length < 9223372036854775808) :
    decodeElement (encode v) 0 = .ok v (encode v).length ∧
    decode (encode v) = .ok v ∧
    compareDataInput v v = true := by
  have h1 := decodeElement_encode v hwf hsize
  refine ⟨h1, ?_, compare_refl v hwf⟩
  unfold decode
  rw [h1]

/-- Concrete instance of the round-trip claim on a nested list. -/
theorem claim_roundtrip_witness :
    decodeElement (encode (.list [.text [102, 111, 111],
        .list [.text [98, 97, 114], .int32 42]])) 0 =
      .ok (.list [.text [102, 111, 111], .list [.text [98, 97, 114], .int32 42]])
        (encode (.list [.text [102, 111, 111],
          .list [.text [98, 97, 114], .int32 42]])).length ∧
    decode (encode (.list [.text [102, 111, 111],
        .list [.text [98, 97, 114], .int32 42]])) =
      .ok (.list [.text [102, 111, 111], .list [.text [98, 97, 114], .int32 42]]) ∧
    compareDataInput
      (.list [.text [102, 111, 111], .list [.text [98, 97, 114], .int32 42]])
      (.list [.text [102, 111, 111], .list [.text [98, 97, 114], .int32 42]]) = true :=
  claim_roundtrip
    (.list [.text [102, 111, 111], .list [.text [98, 97, 114], .int32 42]])
    rfl (by decide)

/-- C2 is false on the code: the Text branch casts the decoded uint64 length
to int; a declared length of 2^64 - 1 becomes -1, passes the bounds check
(offset - 1 is not greater than the data length), and the slice
data[offset : offset-1] has its high bound below its low bound, which is a
Go runtime panic, not an error return.  Likewise the DataInput branch's
make([]interface, 0, count) panics for a declared count of 2^64 - 1, which
exceeds the maximal int.  Both decodeElement and decode abort. -/
theorem claim_decode_panics :
    decodeElement [1, 255, 255, 255, 255, 255, 255, 255, 255, 255, 1] 0 =
      .panicSliceBounds ∧
    decodeElement [3, 255, 255, 255, 255, 255, 255, 255, 255, 255, 1] 0 =
      .panicMakeCap ∧
    decode [1, 255, 255, 255, 255, 255, 255, 255, 255, 255, 1] = .error .sliceBounds ∧
    decode [3, 255, 255, 255, 255, 255, 255, 255, 255, 255, 1] = .error .makeCap :=
  ⟨rfl, rfl, rfl, rfl⟩

/-- C3 as stated is false on the code: on input [0x7F] decodeElement reports
unknown tag, but the top-level decode discards the error and returns Go nil
— the same value a successful Null decode yields — so decode yields a Value
rather than an error. -/
theorem claim_error_swallowed_cex :
    decodeElement [127] 0 = .err (.unknownTag 127) ∧ decode [127] = .ok .null :=
  ⟨rfl, rfl⟩

/-- C3 amended: decodeElement returns every parse error as a typed error
value with no decoded element, but the top-level decode discards the error
and returns Go nil, indistinguishable from a decoded Null, so a failed
decode yields the Null value rather than propagating the error. -/
theorem claim_error_swallowed (data : List Nat) (e : DErr)
    (h : decodeElement data 0 = .err e) : decode data = .ok .null := by
  unfold decode
  rw [h]

/-- Concrete instance of the amended C3 claim on an unknown-tag input. -/
theorem claim_error_swallowed_witness : decode [127] = .ok .null :=
  claim_error_swallowed [127] (.unknownTag 127) rfl

/-- C4: Varint round-trip.  For every uint64 n,
decodeVarint(encodeVarint(n)) succeeds and returns exactly the pair
(n, len(encodeVarint(n))). -/
theorem claim_varint_roundtrip (n : Nat) (h : n < 2 ^ 64) :
    decodeVarint (encodeVarint n) = .ok (n, (encodeVarint n).length) := by
  have := decodeVarint_enc h []
  simpa using this

/-- Concrete instance of the varint round-trip at the largest uint64. -/
theorem claim_varint_roundtrip_witness :
    decodeVarint (encodeVarint 18446744073709551615) =
      .ok (18446744073709551615, (encodeVarint 18446744073709551615).length) :=
  claim_varint_roundtrip 18446744073709551615 (by decide)

/-- C5: Truncation detection.  For every well-formed model value other than
a bare Null with a Go-representable encoding, decoding any proper non-empty
prefix of encode(v) fails with a truncation-kind error — input exhausted,
declared length or count exceeding the remaining bytes, or a varint ending
mid-sequence — never with any other error kind and never returning a
value. -/
theorem claim_truncation (v : Value) (hwf : wfValue v = true) (_hnn : v ≠ .null)
    (hsize : (encode v).length < 9223372036854775808)
    (p : List Nat) (hp : p <+: encode v) (hne : p ≠ encode v) (_hnonempty : p ≠ []) :
    ∃ e, decodeElement p 0 = .err e ∧ DErr.isTruncation e = true := by
  have hres := pd_all v hwf (p.length + 1) [] p hp hne (by omega)
    (by simpa [encode] using hsize)
  obtain ⟨e, heq, htr⟩ := hres
  exact ⟨e, by simpa [decodeElement] using heq, htr⟩

/-- Concrete instance of truncation detection: a Text encoding cut inside
its payload. -/
theorem claim_truncation_witness :
    ∃ e, decodeElement [1, 3, 102] 0 = .err e ∧ DErr.isTruncation e = true :=
  claim_truncation (.text [102, 111, 111]) rfl (fun h => Value.noConfusion h)
    (by decide) [1, 3, 102] ⟨[111, 111], rfl⟩ (by decide) (by decide)

/-- C6: Trailing-byte permissiveness.  For every well-formed model value and
every trailing byte sequence (within Go's representable input size), decode
of the encoding followed by the trailing bytes succeeds and returns a value
structurally equal to v; the trailing bytes are not consumed and never
cause an error. -/
theorem claim_trailing (v : Value) (t : List Nat) (hwf : wfValue v = true)
    (hsize : (encode v).length + t.length < 9223372036854775808) :
    decodeElement (encode v ++ t) 0 = .ok v (encode v).length ∧
    decode (encode v ++ t) = .ok v ∧
    compareDataInput v v = true := by
  have h1 := decodeElement_encode_trailing v t hwf hsize
  refine ⟨h1, ?_, compare_refl v hwf⟩
  unfold decode
  rw [h1]

/-- Concrete instance of trailing-byte permissiveness. -/
theorem claim_trailing_witness :
    decodeElement (encode (.int32 (-1)) ++ [222, 173, 190]) 0 =
      .ok (.int32 (-1)) (encode (.int32 (-1))).length ∧
    decode (encode (.int32 (-1)) ++ [222, 173, 190]) = .ok (.int32 (-1)) ∧
    compareDataInput (.int32 (-1)) (.int32 (-1)) = true :=
  claim_trailing (.int32 (-1)) [222, 173, 190] rfl (by decide)

/-- C7: Varint encoding size and canonicality.  For every uint64 n the
output length is max(1, ceil(bits_needed(n)/7)) — Nat.size n is the number
of bits needed — hence between 1 and 10 bytes; the final byte always has
the continuation bit clear and is nonzero whenever n is positive, so the
encoder never emits a trailing zero continuation byte; and 0 encodes as the
single byte 0x00. -/
theorem claim_varint_canonical :
    (∀ n : Nat, n < 2 ^ 64 →
      (encodeVarint n).length = max 1 ((Nat.size n + 6) / 7) ∧
      1 ≤ (encodeVarint n).length ∧ (encodeVarint n).length ≤ 10 ∧
      ∃ b, (encodeVarint n).getLast? = some b ∧ b < 128 ∧ (0 < n → 0 < b)) ∧
    encodeVarint 0 = [0] := by
  constructor
  · intro n h
    have hlen := encodeVarint_length_eq h
    have hsz : n.size ≤ 64 := Nat.size_le.mpr h
    refine ⟨hlen, by omega, by omega, ?_⟩
    exact encodeVarintGo_getLast (by
      calc n < 2 ^ 64 := h
      _ < 128 ^ 10 := by norm_num)
  · rfl

/-- Concrete instance of the varint size formula at a boundary value. -/
theorem claim_varint_canonical_witness :
    (encodeVarint 16384).length = max 1 ((Nat.size 16384 + 6) / 7) ∧
    1 ≤ (encodeVarint 16384).length ∧ (encodeVarint 16384).length ≤ 10 ∧
    ∃ b, (encodeVarint 16384).getLast? = some b ∧ b < 128 ∧ (0 < 16384 → 0 < b) :=
  claim_varint_canonical.1 16384 (by decide)

/-- C8: Int32 layout and boundaries.  For every int32, the encoding is
exactly 5 bytes: tag 0x02 followed by 4 bytes that are each below 256 and
recombine in little-endian order to the two's-complement bit pattern of i,
and decoding the encoding returns exactly i after consuming all 5 bytes. -/
theorem claim_int32_layout (i : Int) (hlo : -2147483648 ≤ i) (hhi : i < 2147483648) :
    encode (.int32 i) = 2 :: int32LE i ∧
    (encode (.int32 i)).length = 5 ∧
    (int32LE i).length = 4 ∧
    (int32LE i).getD 0 0 + (int32LE i).getD 1 0 * 256 + (int32LE i).getD 2 0 * 65536 +
      (int32LE i).getD 3 0 * 16777216 = toUInt32Pat i ∧
    (∀ b ∈ int32LE i, b < 256) ∧
    decodeElement (encode (.int32 i)) 0 = .ok (.int32 i) 5 ∧
    decode (encode (.int32 i)) = .ok (.int32 i) := by
  have hu : toUInt32Pat i < 4294967296 := by
    have h1 : (0 : Int) ≤ i % 4294967296 := Int.emod_nonneg i (by norm_num)
    have h2 : i % 4294967296 < 4294967296 := Int.emod_lt_of_pos i (by norm_num)
    simp only [toUInt32Pat]
    omega
  have hwf : wfValue (.int32 i) = true := by
    simp only [wfValue, Bool.and_eq_true, decide_eq_true_eq]
    exact ⟨hlo, hhi⟩
  have hlen5 : (encode (.int32 i)).length = 5 := by simp [encode, encodeElement, int32LE]
  have hdec := decodeElement_encode (.int32 i) hwf (by rw [hlen5]; norm_num)
  rw [hlen5] at hdec
  refine ⟨rfl, hlen5, rfl, ?_, ?_, hdec, ?_⟩
  · simp only [int32LE, List.getD_cons_zero, List.getD_cons_succ]
    omega
  · intro b hb
    simp only [int32LE, List.mem_cons, List.not_mem_nil, or_false] at hb
    rcases hb with h | h | h | h <;> subst h <;> omega
  · unfold decode
    rw [hdec]

/-- Concrete instance of the int32 layout at the minimal int32. -/
theorem claim_int32_layout_witness :
    encode (.int32 (-2147483648)) = 2 :: int32LE (-2147483648) ∧
    (encode (.int32 (-2147483648))).length = 5 ∧
    (int32LE (-2147483648)).length = 4 ∧
    (int32LE (-2147483648)).getD 0 0 + (int32LE (-2147483648)).getD 1 0 * 256 +
      (int32LE (-2147483648)).getD 2 0 * 65536 +
      (int32LE (-2147483648)).getD 3 0 * 16777216 = toUInt32Pat (-2147483648) ∧
    (∀ b ∈ int32LE (-2147483648), b < 256) ∧
    decodeElement (encode (.int32 (-2147483648))) 0 = .ok (.int32 (-2147483648)) 5 ∧
    decode (encode (.int32 (-2147483648))) = .ok (.int32 (-2147483648)) :=
  claim_int32_layout (-2147483648) (by decide) (by decide)

/-- C9: Pinned scenario encodings.  The empty list encodes to exactly
03 00, and List[Text foo, List[Text bar, Int32 42]] encodes to exactly the
19-byte sequence 03 02 01 03 66 6F 6F 03 02 01 03 62 61 72 02 2A 00 00 00. -/
theorem claim_pinned_encodings :
    encode (.list []) = [3, 0] ∧
    encode (.list [.text [102, 111, 111], .list [.text [98, 97, 114], .int32 42]]) =
      [3, 2, 1, 3, 102, 111, 111, 3, 2, 1, 3, 98, 97, 114, 2, 42, 0, 0, 0] :=
  ⟨rfl, rfl⟩

/-- C10: encode silently discards the error encodeElement produces for an
element of an unsupported dynamic type and still returns a byte string: a
top-level unsupported value encodes to the empty string, and a DataInput
with an unsupported element among its children encodes with the varint
count covering the full declared list length while only the encodings of
the elements before the failing one follow it — strictly fewer than the
count. -/
theorem claim_unsupported_discarded :
    encode .unsupported = [] ∧
    (encodeElement .unsupported).2 = false ∧
    ∀ (good rest : List Value), (∀ g ∈ good, (encodeElement g).2 = true) →
      (encodeElement (.list (good ++ .unsupported :: rest))).2 = false ∧
      encode (.list (good ++ .unsupported :: rest)) =
        3 :: (encodeVarint (good ++ Value.unsupported :: rest).length ++
          (good.map encode).flatten) ∧
      good.length < (good ++ Value.unsupported :: rest).length := by
  refine ⟨rfl, rfl, ?_⟩
  intro good rest h
  have hb := encodeList_with_bad good rest h
  refine ⟨?_, ?_, ?_⟩
  · simp [encodeElement, hb]
  · simp only [encode, encodeElement, hb]
    rfl
  · simp only [List.length_append, List.length_cons]
    omega

/-- Concrete instance of the discarded unsupported-element error. -/
theorem claim_unsupported_discarded_witness :
    (encodeElement (Value.list ([Value.int32 7] ++
      Value.unsupported :: [Value.null]))).2 = false ∧
    encode (Value.list ([Value.int32 7] ++ Value.unsupported :: [Value.null])) =
      3 :: (encodeVarint ([Value.int32 7] ++ Value.unsupported :: [Value.null]).length ++
        ([Value.int32 7].map encode).flatten) ∧
    [Value.int32 7].length <
      ([Value.int32 7] ++ Value.unsupported :: [Value.null]).length :=
  claim_unsupported_discarded.2.2 [Value.int32 7] [Value.null] (by
    intro g hg
    simp only [List.mem_singleton] at hg
    subst hg
    rfl)
